import Mathlib

/-!
Shallow embedding of `zenoh-ext`'s `PublicationCache`
(`src/zenoh-ext/src/publication_cache.rs`).

The cache task owns a `HashMap<OwnedKeyExpr, VecDeque<Sample>>`; we embed it
as an association list from keys (strings) to queues (lists, front at the
head, `push_back` appends at the tail, `pop_front` drops the head).  The
`select!` event loop is embedded as a step function over an explicit event
type, and the construction (`PublicationCache::new`) and teardown
(`PublicationCache::close`) protocols as functions over explicit outcome
flags for the fallible collaborator calls.
-/

namespace PubCache

/-- A key expression, kept as its canonical string. -/
abbrev Key := String

/-- One observed publication (`Sample`): its key expression and an opaque
payload identifier standing for the payload/timestamp contents. -/
structure Sample where
  keyExpr : Key
  payload : Nat
deriving DecidableEq, Repr

/-- A per-key history queue (`VecDeque<Sample>`): head = oldest (front). -/
abbrev Queue := List Sample

/-- The cache (`HashMap<OwnedKeyExpr, VecDeque<Sample>>`), as an association
list whose entries have pairwise distinct keys. -/
abbrev Cache := List (Key × Queue)

/-- `cache.get(k)` / `cache.get_mut(k)`: lookup of the queue stored under an
exact key. -/
def cacheGet : Cache → Key → Option Queue
  | [], _ => none
  | (k', q) :: rest, k => if k' = k then some q else cacheGet rest k

/-- Writing back through `cache.get_mut(k)`: replace the queue stored under
`k`, leaving every other entry (and the entry order) unchanged. -/
def cacheUpdate : Cache → Key → Queue → Cache
  | [], _, _ => []
  | (k', q') :: rest, k, q =>
      if k' = k then (k', q) :: rest else (k', q') :: cacheUpdate rest k q

/-- The body of the publication branch acting on one queue:
`if queue.len() >= history { queue.pop_front(); } queue.push_back(sample);`. -/
def pushQ (history : Nat) (q : Queue) (s : Sample) : Queue :=
  (if q.length ≥ history then q.drop 1 else q) ++ [s]

/-- The publication branch of the cache task (publication_cache.rs lines
185–197): append under an existing key with one-step FIFO eviction; under a
new key, insert a fresh single-element queue unless the cache already holds
`limit` keys, in which case the sample is dropped (the code only logs). -/
def recordSample (history limit : Nat) (qk : Key) (s : Sample) (c : Cache) : Cache :=
  match cacheGet c qk with
  | some queue => cacheUpdate c qk (pushQ history queue s)
  | none => if c.length ≥ limit then c else c ++ [(qk, [s])]

/-- Modelled from the spec: the key-expression collaborator's
`join(prefix, suffix) -> KeyExpression` used by the cache task
(`prefix.join(&sample.key_expr)`); the joined key is the prefix, a `/`
separator, and the suffix (spec §6 and the prefix-addressing property:
prefix `"cache"` and key `"a/b"` give `"cache/a/b"`).  `keyexpr::join` in
the real code is fallible, so the general definitions below take an
arbitrary partial join function and this total one instantiates it. -/
def joinSpec (p k : Key) : Option Key := some (p ++ "/" ++ k)

/-- The whole publication branch (publication_cache.rs lines 177–198): joins
the configured queryable prefix (if any) with the sample's key —
`prefix.join(&sample.key_expr).unwrap()` — and records the sample under the
resulting key.  `none` models the `unwrap` panicking because the join
failed; without a prefix the sample's own key is used unchanged. -/
def handlePublication (join : Key → Key → Option Key) (qpfx : Option Key)
    (history limit : Nat) (s : Sample) (c : Cache) : Option Cache :=
  match qpfx with
  | some p =>
      match join p s.keyExpr with
      | some qk => some (recordSample history limit qk s c)
      | none => none
  | none => some (recordSample history limit s.keyExpr s c)

/-- `query.selector().key_expr.as_str().contains('*')`: the wildcard marker
test used to pick the exact-lookup or the intersection branch. -/
def containsStar (s : Key) : Bool := s.data.contains '*'

/-- The query branch of the cache task (publication_cache.rs lines 202–223):
with no wildcard marker in the selector, reply with the queue stored under
the selector taken as an exact key (nothing if absent); otherwise iterate
over all cache entries and reply with every sample of every key that
intersects the selector, per-key order preserved. -/
def repliesFor (intersects : Key → Key → Bool) (sel : Key) (c : Cache) : List Sample :=
  if containsStar sel = false then
    match cacheGet c sel with
    | some queue => queue
    | none => []
  else
    c.foldr (fun kv acc => (if intersects sel kv.1 then kv.2 else []) ++ acc) []

/-- One attempted `query.reply(..)` call: the sample sent and whether the
send succeeded (`Err` is only logged). -/
structure ReplyAttempt where
  sample : Sample
  delivered : Bool
deriving DecidableEq, Repr

/-- The sequence of reply attempts the query branch makes: one per cached
sample to be replayed, in order; `sendOk i` tells whether the `i`-th send
succeeds.  A failure is logged and the iteration continues. -/
def attemptsFor (intersects : Key → Key → Bool) (sendOk : Nat → Bool)
    (sel : Key) (c : Cache) : List ReplyAttempt :=
  (repliesFor intersects sel c).enum.map (fun p => ⟨p.2, sendOk p.1⟩)

/-- One readiness outcome of the `select!`: a publication channel event
(`Ok(sample)` or `Err`), a query channel event (`Ok(query)` carrying its
selector, or `Err`), or the control channel resolving (a stop message or
the channel having been closed — `stoprx.next()` resolves in both cases). -/
inductive Event where
  | publication (res : Option Sample)
  | query (res : Option Key)
  | control
deriving DecidableEq, Repr

/-- Result of one loop iteration. -/
inductive StepRes where
  | running (cache : Cache) (replies : List Sample)
  | stopped
  | panicked
deriving DecidableEq, Repr

/-- One iteration of the cache task's `select!` loop (publication_cache.rs
lines 174–231).  A channel `Err` on the publication or query stream is
ignored (`if let Ok(..)` falls through); the control branch returns. -/
def stepEvent (join : Key → Key → Option Key) (qpfx : Option Key)
    (history limit : Nat) (intersects : Key → Key → Bool)
    (e : Event) (c : Cache) : StepRes :=
  match e with
  | Event.publication (some s) =>
      match handlePublication join qpfx history limit s c with
      | some c' => StepRes.running c' []
      | none => StepRes.panicked
  | Event.publication none => StepRes.running c []
  | Event.query (some sel) => StepRes.running c (repliesFor intersects sel c)
  | Event.query none => StepRes.running c []
  | Event.control => StepRes.stopped

/-- Run the loop over a finite schedule of ready events.  Returns
`some (cache, true)` when the loop returned via the control branch (later
events are abandoned), `some (cache, false)` when the schedule is exhausted
with the loop still running, and `none` if the task panicked. -/
def runLoop (join : Key → Key → Option Key) (qpfx : Option Key)
    (history limit : Nat) (intersects : Key → Key → Bool) :
    List Event → Cache → Option (Cache × Bool)
  | [], c => some (c, false)
  | e :: rest, c =>
      match stepEvent join qpfx history limit intersects e c with
      | StepRes.running c' _ => runLoop join qpfx history limit intersects rest c'
      | StepRes.stopped => some (c, true)
      | StepRes.panicked => none

/-- Publish a sequence of samples, all recorded under the same
queryable-relative key `qk` (the same-key scenario of the history bound). -/
def pubAll (history limit : Nat) (qk : Key) (samples : List Sample) (c : Cache) : Cache :=
  samples.foldl (fun acc s => recordSample history limit qk s acc) c

/-- Every queue in the cache holds at most `h` samples. -/
def queuesBounded (h : Nat) (c : Cache) : Prop :=
  ∀ kv ∈ c, (kv.2 : Queue).length ≤ h

instance (h : Nat) (c : Cache) : Decidable (queuesBounded h c) := by
  unfold queuesBounded; infer_instance

/-! ### Construction (`PublicationCache::new`) and teardown (`close`) -/

/-- The fallible/validated inputs of one build attempt
(`PublicationCacheBuilder` as consumed by `PublicationCache::new`):
whether `pub_key_expr` parsed, the staged `queryable_prefix`
(`none` = not configured, `some none` = configured but invalid,
`some (some p)` = configured and valid), whether the session has an HLC,
and whether each of the two declarations succeeds. -/
structure BuildConf where
  pubKeyOk : Bool
  queryablePfx : Option (Option Key)
  hasHlc : Bool
  subDeclOk : Bool
  qryDeclOk : Bool
deriving DecidableEq, Repr

/-- The session's registration counters observed by the collaborator:
how many subscriptions and queryables are currently declared. -/
structure Registrations where
  subs : Nat
  qrys : Nat
deriving DecidableEq, Repr

/-- Modelled from the spec: dropping an already-declared subscriber
registration undeclares it (the rollback of §4.3 step 5 — "any
subscription already registered in step 4 is rolled back (undeclared)
before returning the error"); the `Subscriber` type's drop glue is not part
of the shown source. -/
def dropSub (r : Registrations) : Registrations :=
  { r with subs := r.subs - 1 }

/-- `PublicationCache::new` (publication_cache.rs lines 120–239) as a state
transition on the registration counters: `pub_key_expr?` first, then the
`queryable_prefix` match (bailing on `Some(Err(..))`), then the
`session.hlc()` check, then `declare_subscriber`, then `declare_queryable`
(on whose failure the subscriber is dropped, hence undeclared). -/
def buildNew (conf : BuildConf) (r : Registrations) :
    Except String Unit × Registrations :=
  match conf.pubKeyOk, conf.queryablePfx with
  | false, _ => (Except.error "invalid pub_key_expr", r)
  | true, some none =>
      (Except.error "Invalid key expression for queryable_prefix", r)
  | true, _ =>
      if conf.hasHlc = false then
        (Except.error "the Session is not configured with add_timestamp=true", r)
      else if conf.subDeclOk = false then
        (Except.error "declare_subscriber failed", r)
      else
        let r1 : Registrations := { r with subs := r.subs + 1 }
        if conf.qryDeclOk = false then
          (Except.error "declare_queryable failed", dropSub r1)
        else
          (Except.ok (), { r1 with qrys := r1.qrys + 1 })

/-- Whether an `Except` result is a success. -/
def exIsOk : Except String Unit → Bool
  | Except.ok _ => true
  | Except.error _ => false

/-- The two fallible steps of `PublicationCache::close`. -/
structure CloseEnv where
  qryUndeclOk : Bool
  subUndeclOk : Bool
deriving DecidableEq, Repr

/-- The teardown actions close can perform, in the order performed. -/
inductive Act where
  | undeclQry
  | undeclSub
  | dropCtrl
deriving DecidableEq, Repr

/-- Modelled from the spec: when close returns early through `?`, the
destructured fields still in scope are dropped; dropping the subscriber
undeclares it (best effort) and dropping `_stoptx` closes the control
channel (spec §4.3 close and §7 teardown errors). -/
def dropRemaining (subStillHeld : Bool) : List Act :=
  (if subStillHeld then [Act.undeclSub] else []) ++ [Act.dropCtrl]

/-- `PublicationCache::close` (publication_cache.rs lines 243–255):
`_queryable.undeclare()?`, then `_local_sub.undeclare()?`, then
`drop(_stoptx)`; an early `?` return still drops what is left. -/
def closeRun (env : CloseEnv) : List Act × Except String Unit :=
  if env.qryUndeclOk = false then
    (Act.undeclQry :: dropRemaining true,
      Except.error "undeclare queryable failed")
  else if env.subUndeclOk = false then
    (Act.undeclQry :: Act.undeclSub :: dropRemaining false,
      Except.error "undeclare subscriber failed")
  else
    ([Act.undeclQry, Act.undeclSub, Act.dropCtrl], Except.ok ())

/-! ### Basic cache lemmas -/

theorem cacheUpdate_length (c : Cache) (k : Key) (q : Queue) :
    (cacheUpdate c k q).length = c.length := by
  induction c with
  | nil => rfl
  | cons kv rest ih =>
      obtain ⟨k', q'⟩ := kv
      by_cases h : k' = k <;> simp [cacheUpdate, h, ih]

theorem cacheUpdate_keys (c : Cache) (k : Key) (q : Queue) :
    (cacheUpdate c k q).map Prod.fst = c.map Prod.fst := by
  induction c with
  | nil => rfl
  | cons kv rest ih =>
      obtain ⟨k', q'⟩ := kv
      by_cases h : k' = k <;> simp [cacheUpdate, h, ih]

theorem cacheGet_mem {c : Cache} {k : Key} {q : Queue}
    (h : cacheGet c k = some q) : (k, q) ∈ c := by
  induction c with
  | nil => simp [cacheGet] at h
  | cons kv rest ih =>
      obtain ⟨k', q'⟩ := kv
      by_cases hk : k' = k
      · subst hk
        simp [cacheGet] at h
        subst h
        exact List.mem_cons_self _ _
      · simp [cacheGet, hk] at h
        exact List.mem_cons_of_mem _ (ih h)

theorem cacheGet_none_not_mem {c : Cache} {k : Key}
    (h : cacheGet c k = none) : k ∉ c.map Prod.fst := by
  induction c with
  | nil => simp
  | cons kv rest ih =>
      obtain ⟨k', q'⟩ := kv
      by_cases hk : k' = k
      · subst hk; simp [cacheGet] at h
      · simp [cacheGet, hk] at h
        intro hmem
        simp only [List.map_cons, List.mem_cons] at hmem
        rcases hmem with rfl | hmem
        · exact hk rfl
        · exact ih h hmem

theorem cacheUpdate_bounded {h : Nat} {c : Cache} (k : Key) {q : Queue}
    (hc : queuesBounded h c) (hq : q.length ≤ h) :
    queuesBounded h (cacheUpdate c k q) := by
  induction c with
  | nil => intro kv hkv; simp [cacheUpdate] at hkv
  | cons kv' rest ih =>
      obtain ⟨k', q'⟩ := kv'
      have hc' : queuesBounded h rest := fun kv hkv => hc kv (List.mem_cons_of_mem _ hkv)
      by_cases hk : k' = k
      · intro kv hkv
        simp [cacheUpdate, hk] at hkv
        rcases hkv with rfl | hkv
        · exact hq
        · exact hc kv (List.mem_cons_of_mem _ hkv)
      · intro kv hkv
        simp only [cacheUpdate, if_neg hk, List.mem_cons] at hkv
        rcases hkv with rfl | hkv
        · exact hc _ (List.mem_cons_self _ _)
        · exact ih hc' kv hkv

theorem pushQ_length_le {h : Nat} (hh : 1 ≤ h) {q : Queue} (s : Sample)
    (hq : q.length ≤ h) : (pushQ h q s).length ≤ h := by
  unfold pushQ
  by_cases hge : q.length ≥ h
  · have hlen : q.length = h := Nat.le_antisymm hq hge
    simp [hge, List.length_drop]
    omega
  · simp [hge]
    omega

/-- C2 — resource limit.  At the limit a new key's sample is dropped and
the cache is unchanged; an already-present key still gets the FIFO append;
the entry count and the distinctness of keys are preserved, so the number
of distinct keys never exceeds the limit. -/
theorem c2_resources_limit (h L : Nat) (k : Key) (s : Sample) (c : Cache) :
    (c.length = L → cacheGet c k = none → recordSample h L k s c = c)
    ∧ (∀ q, cacheGet c k = some q →
        recordSample h L k s c = cacheUpdate c k (pushQ h q s))
    ∧ (c.length ≤ L → (recordSample h L k s c).length ≤ L)
    ∧ ((c.map Prod.fst).Nodup → ((recordSample h L k s c).map Prod.fst).Nodup) := by
  refine ⟨?_, ?_, ?_, ?_⟩
  · intro hlen hnone
    simp [recordSample, hnone, hlen]
  · intro q hq
    simp [recordSample, hq]
  · intro hle
    unfold recordSample
    cases hget : cacheGet c k with
    | some q => simpa [cacheUpdate_length] using hle
    | none =>
        by_cases hfull : c.length ≥ L
        · simpa [hfull] using hle
        · simp only [if_neg hfull]
          simp only [List.length_append, List.length_cons, List.length_nil]
          omega
  · intro hnd
    unfold recordSample
    cases hget : cacheGet c k with
    | some q => simpa [cacheUpdate_keys] using hnd
    | none =>
        by_cases hfull : c.length ≥ L
        · simpa [hfull] using hnd
        · simp only [if_neg hfull, List.map_append, List.map_cons, List.map_nil]
          rw [List.nodup_append]
          refine ⟨hnd, List.nodup_singleton _, ?_⟩
          intro a ha hk2
          simp only [List.mem_singleton] at hk2
          subst hk2
          exact cacheGet_none_not_mem hget ha

/-- Witness for `c2_resources_limit`: a cache already holding `L = 2` keys
drops a publication under a third key, but still appends under a present
key. -/
theorem c2_resources_limit_witness :
    recordSample 1 2 "x/y" ⟨"x/y", 7⟩
        [("a/b", [⟨"a/b", 0⟩]), ("c/d", [⟨"c/d", 1⟩])]
      = [("a/b", [⟨"a/b", 0⟩]), ("c/d", [⟨"c/d", 1⟩])] :=
  (c2_resources_limit 1 2 "x/y" ⟨"x/y", 7⟩
    [("a/b", [⟨"a/b", 0⟩]), ("c/d", [⟨"c/d", 1⟩])]).1 (by decide) (by decide)

/-! ### History bound (C1) -/

theorem pushQ_lastN {h : Nat} (hh : 1 ≤ h) {q : Queue} {s : Sample}
    (hq : q.length ≤ h) :
    pushQ h q s = (q ++ [s]).drop ((q ++ [s]).length - h) := by
  unfold pushQ
  by_cases hge : q.length ≥ h
  · have hlen : q.length = h := Nat.le_antisymm hq hge
    rw [if_pos hge, List.length_append, List.drop_append_eq_append_drop]
    have h1 : q.length + [s].length - h = 1 := by simp; omega
    rw [h1]
    have h2 : 1 - q.length = 0 := by omega
    simp [h2]
  · rw [if_neg hge]
    have h0 : q.length + 1 - h = 0 := by omega
    simp [h0]

theorem dropLast_absorb (h : Nat) (l rest : List Sample) :
    ((l.drop (l.length - h)) ++ rest).drop
        (((l.drop (l.length - h)) ++ rest).length - h)
      = (l ++ rest).drop ((l ++ rest).length - h) := by
  by_cases hle : l.length ≤ h
  · have h0 : l.length - h = 0 := by omega
    simp [h0]
  · push_neg at hle
    rw [List.drop_append_eq_append_drop, List.drop_append_eq_append_drop,
      List.drop_drop]
    congr 1
    · congr 1
      simp only [List.length_append, List.length_drop]
      omega
    · congr 1
      simp only [List.length_append, List.length_drop]
      omega

theorem foldl_pushQ {h : Nat} (hh : 1 ≤ h) :
    ∀ (samples : List Sample) (q : Queue), q.length ≤ h →
      samples.foldl (pushQ h) q = (q ++ samples).drop ((q ++ samples).length - h) := by
  intro samples
  induction samples with
  | nil =>
      intro q hq
      have h0 : q.length - h = 0 := by omega
      simp [h0]
  | cons s rest ih =>
      intro q hq
      rw [List.foldl_cons, ih (pushQ h q s) (pushQ_length_le hh s hq),
        pushQ_lastN hh hq]
      have := dropLast_absorb h (q ++ [s]) rest
      simpa using this

theorem recordSample_same_key (h limit : Nat) (k : Key) (s : Sample) (q : Queue) :
    recordSample h limit k s [(k, q)] = [(k, pushQ h q s)] := by
  simp [recordSample, cacheGet, cacheUpdate]

theorem pubAll_single (h limit : Nat) (k : Key) :
    ∀ (samples : List Sample) (q : Queue),
      pubAll h limit k samples [(k, q)] = [(k, samples.foldl (pushQ h) q)] := by
  intro samples
  induction samples with
  | nil => intro q; rfl
  | cons s rest ih =>
      intro q
      show pubAll h limit k rest (recordSample h limit k s [(k, q)]) = _
      rw [recordSample_same_key, ih (pushQ h q s)]
      rfl

theorem pubAll_from_empty (h limit : Nat) (hl : 1 ≤ limit) (k : Key)
    (s : Sample) (rest : List Sample) :
    pubAll h limit k (s :: rest) [] = [(k, (s :: rest).foldl (pushQ h) [])] := by
  have hnf : ¬ ((List.length ([] : Cache)) ≥ limit) := by simp; omega
  have h0 : recordSample h limit k s [] = [(k, [s])] := by
    simp [recordSample, cacheGet]
    omega
  have hps : pushQ h [] s = [s] := by simp [pushQ]
  show pubAll h limit k rest (recordSample h limit k s []) = _
  rw [h0, pubAll_single, List.foldl_cons, hps]

/-- C1 (amended to `h ≥ 1`) — history bound: for history depth `h ≥ 1`,
recording preserves the bound `h` on every queue's length, and after `N ≥ h`
publications under one key an exact query for that key returns exactly the
last `h` samples in publication order.  (For `h = 0` the code behaves like
`h = 1`: see the counterexample.) -/
theorem c1_history_bound (h limit : Nat) (k : Key) (s : Sample) (c : Cache)
    (intersects : Key → Key → Bool) (samples : List Sample) (hh : 1 ≤ h) :
    (queuesBounded h c → queuesBounded h (recordSample h limit k s c))
    ∧ (1 ≤ limit → containsStar k = false → h ≤ samples.length →
        repliesFor intersects k (pubAll h limit k samples []) =
          samples.drop (samples.length - h)) := by
  constructor
  · intro hc
    unfold recordSample
    cases hget : cacheGet c k with
    | some q =>
        have hqle : q.length ≤ h := hc _ (cacheGet_mem hget)
        exact cacheUpdate_bounded k hc (pushQ_length_le hh s hqle)
    | none =>
        by_cases hfull : c.length ≥ limit
        · simpa [hfull] using hc
        · simp only [if_neg hfull]
          intro kv hkv
          rcases List.mem_append.mp hkv with hkv | hkv
          · exact hc kv hkv
          · simp only [List.mem_singleton] at hkv
            subst hkv
            simpa using hh
  · intro hl hstar hlen
    cases samples with
    | nil => simp at hlen; omega
    | cons s0 rest =>
        rw [pubAll_from_empty h limit hl k s0 rest,
          foldl_pushQ hh (s0 :: rest) [] (by simp)]
        simp only [repliesFor, hstar, cacheGet, if_pos rfl]
        simp

/-- Witness for `c1_history_bound`: three publications with `history = 2`
leave exactly the last two samples, returned in publication order. -/
theorem c1_history_bound_witness :
    repliesFor (fun _ _ => false) "a/b"
        (pubAll 2 10 "a/b" [⟨"a/b", 0⟩, ⟨"a/b", 1⟩, ⟨"a/b", 2⟩] [])
      = [⟨"a/b", 1⟩, ⟨"a/b", 2⟩] := by
  have := (c1_history_bound 2 10 "a/b" ⟨"a/b", 0⟩ [] (fun _ _ => false)
    [⟨"a/b", 0⟩, ⟨"a/b", 1⟩, ⟨"a/b", 2⟩] (by decide)).2 (by decide) (by decide)
    (by decide)
  simpa using this

/-- C1 counterexample: with `history = 0` a single publication under a new
key still stores one sample, so the queue's length exceeds `h = 0` and the
query returns that sample rather than the last `0` samples. -/
theorem c1_zero_history_cex :
    pubAll 0 10 "a/b" [⟨"a/b", 5⟩] [] = [("a/b", [⟨"a/b", 5⟩])]
    ∧ ¬ queuesBounded 0 (pubAll 0 10 "a/b" [⟨"a/b", 5⟩] [])
    ∧ repliesFor (fun _ _ => false) "a/b" (pubAll 0 10 "a/b" [⟨"a/b", 5⟩] []) ≠ [] := by
  decide

/-! ### Query replies (C6, C8), prefix addressing (C7), unwrap (C10) -/

theorem foldr_inter (intersects : Key → Key → Bool) (sel : Key) (c : Cache) :
    c.foldr (fun kv acc => (if intersects sel kv.1 then kv.2 else []) ++ acc) []
      = ((c.filter (fun kv => intersects sel kv.1)).map Prod.snd).flatten := by
  induction c with
  | nil => rfl
  | cons kv rest ih =>
      cases hi : intersects sel kv.1 <;>
        simp [List.filter_cons, hi, ih]

/-- C6 — query branch: a selector without a wildcard marker is answered
from the exact key's queue (empty if absent) in stored order; a selector
with a wildcard is answered with every sample of every intersecting stored
key, per-key order preserved, keys in the map's iteration order; either way
the cache is unchanged and the loop keeps running. -/
theorem c6_query_replies (intersects : Key → Key → Bool) (sel : Key) (c : Cache)
    (join : Key → Key → Option Key) (qpfx : Option Key) (h limit : Nat) :
    (containsStar sel = false →
      repliesFor intersects sel c = (cacheGet c sel).getD [])
    ∧ (containsStar sel = true →
      repliesFor intersects sel c =
        ((c.filter (fun kv => intersects sel kv.1)).map Prod.snd).flatten)
    ∧ stepEvent join qpfx h limit intersects (Event.query (some sel)) c
        = StepRes.running c (repliesFor intersects sel c) := by
  refine ⟨?_, ?_, rfl⟩
  · intro hstar
    simp only [repliesFor, hstar]
    cases cacheGet c sel <;> simp
  · intro hstar
    simp only [repliesFor, hstar]
    simpa using foldr_inter intersects sel c

/-- Witness for `c6_query_replies`: an exact selector replays the stored
queue. -/
theorem c6_query_replies_witness :
    repliesFor (fun _ _ => true) "a/b" [("a/b", [⟨"a/b", 3⟩])]
      = (cacheGet [("a/b", [⟨"a/b", 3⟩])] "a/b").getD [] :=
  (c6_query_replies (fun _ _ => true) "a/b" [("a/b", [⟨"a/b", 3⟩])]
    joinSpec none 1 1).1 (by decide)

theorem joined_key_ne (p k : Key) : p ++ "/" ++ k ≠ k := by
  intro he
  have hlen := congrArg String.length he
  rw [String.length_append, String.length_append] at hlen
  have h1 : ("/" : String).length = 1 := rfl
  rw [h1] at hlen
  omega

/-- C7 — prefix addressing: with a configured queryable prefix `p` a
publication under key `k` is stored under `p/k`, hence retrievable via the
exact query `p/k` and via any wildcard selector intersecting `p/k`, but not
via the bare key `k`; without a prefix it is stored under `k` unchanged. -/
theorem c7_prefix_addressing (p k : Key) (pay : Nat) (h limit : Nat)
    (intersects : Key → Key → Bool)
    (hl : 1 ≤ limit)
    (hjk : containsStar (p ++ "/" ++ k) = false)
    (hk : containsStar k = false) :
    handlePublication joinSpec (some p) h limit ⟨k, pay⟩ []
        = some [(p ++ "/" ++ k, [⟨k, pay⟩])]
    ∧ repliesFor intersects (p ++ "/" ++ k) [(p ++ "/" ++ k, [⟨k, pay⟩])]
        = [⟨k, pay⟩]
    ∧ repliesFor intersects k [(p ++ "/" ++ k, [⟨k, pay⟩])] = []
    ∧ (∀ pat, containsStar pat = true → intersects pat (p ++ "/" ++ k) = true →
        (⟨k, pay⟩ : Sample) ∈ repliesFor intersects pat [(p ++ "/" ++ k, [⟨k, pay⟩])])
    ∧ handlePublication joinSpec none h limit ⟨k, pay⟩ [] = some [(k, [⟨k, pay⟩])] := by
  refine ⟨?_, ?_, ?_, ?_, ?_⟩
  · simp [handlePublication, joinSpec, recordSample, cacheGet]
    omega
  · simp [repliesFor, hjk, cacheGet]
  · simp [repliesFor, hk, cacheGet, joined_key_ne p k]
  · intro pat h1 h2
    simp [repliesFor, h1, h2]
  · simp [handlePublication, recordSample, cacheGet]
    omega

/-- Witness for `c7_prefix_addressing`: prefix `"cache"`, key `"a/b"`. -/
theorem c7_prefix_addressing_witness :
    handlePublication joinSpec (some "cache") 1 8 ⟨"a/b", 4⟩ []
      = some [("cache" ++ "/" ++ "a/b", [⟨"a/b", 4⟩])] :=
  (c7_prefix_addressing "cache" "a/b" 4 1 8 (fun _ _ => true)
    (by decide) (by decide) (by decide)).1

/-- C8 — reply failures are non-fatal: whatever the per-send outcomes, the
query branch attempts one reply per cached sample to be replayed, in order;
the attempted samples do not depend on which sends fail, the cache is left
unchanged and the loop keeps running. -/
theorem c8_reply_failure (intersects : Key → Key → Bool)
    (sendOk sendOk' : Nat → Bool) (sel : Key) (c : Cache)
    (join : Key → Key → Option Key) (qpfx : Option Key) (h limit : Nat) :
    (attemptsFor intersects sendOk sel c).map ReplyAttempt.sample
        = repliesFor intersects sel c
    ∧ (attemptsFor intersects sendOk sel c).length
        = (repliesFor intersects sel c).length
    ∧ (attemptsFor intersects sendOk sel c).map ReplyAttempt.sample
        = (attemptsFor intersects sendOk' sel c).map ReplyAttempt.sample
    ∧ stepEvent join qpfx h limit intersects (Event.query (some sel)) c
        = StepRes.running c (repliesFor intersects sel c) := by
  have key : ∀ f : Nat → Bool,
      (attemptsFor intersects f sel c).map ReplyAttempt.sample
        = repliesFor intersects sel c := by
    intro f
    unfold attemptsFor
    rw [List.map_map]
    have hcomp : (ReplyAttempt.sample ∘ fun p : Nat × Sample =>
        (⟨p.2, f p.1⟩ : ReplyAttempt)) = Prod.snd := rfl
    rw [hcomp, List.enum_map_snd]
  refine ⟨key sendOk, ?_, (key sendOk).trans (key sendOk').symm, rfl⟩
  unfold attemptsFor
  rw [List.length_map, List.enum_length]

/-- C10 — the `unwrap` on `prefix.join(..)`: when a prefix is configured, a
sample whose key the join rejects panics the cache task (no recoverable
error path), and under the precondition that the join succeeds on every
delivered key the panic branch is unreachable. -/
theorem c10_join_unwrap (join : Key → Key → Option Key) (p : Key) (s : Sample)
    (c : Cache) (h limit : Nat) (intersects : Key → Key → Bool) :
    (join p s.keyExpr = none →
      handlePublication join (some p) h limit s c = none
      ∧ stepEvent join (some p) h limit intersects
          (Event.publication (some s)) c = StepRes.panicked)
    ∧ ((∀ k', (join p k').isSome = true) →
      (handlePublication join (some p) h limit s c).isSome = true) := by
  constructor
  · intro hj
    constructor
    · simp [handlePublication, hj]
    · simp [stepEvent, handlePublication, hj]
  · intro hj
    have hs := hj s.keyExpr
    cases hje : join p s.keyExpr with
    | some qk => simp [handlePublication, hje]
    | none => rw [hje] at hs; simp at hs

/-- Witness for `c10_join_unwrap`: a join that always fails panics the
publication branch. -/
theorem c10_join_unwrap_witness :
    handlePublication (fun _ _ => none) (some "cache") 1 8 ⟨"a/b", 0⟩ [] = none :=
  ((c10_join_unwrap (fun _ _ => none) "cache" ⟨"a/b", 0⟩ [] 1 8
    (fun _ _ => true)).1 rfl).1

/-! ### Construction and teardown (C3, C4, C5) -/

/-- C3 — missing HLC capability: every build attempt against a session
without a logical clock returns an error and leaves the registration
counters untouched — the `hlc()` check precedes both `declare_subscriber`
and `declare_queryable`, so neither is declared. -/
theorem c3_no_hlc (conf : BuildConf) (r : Registrations)
    (hno : conf.hasHlc = false) :
    exIsOk (buildNew conf r).1 = false ∧ (buildNew conf r).2 = r := by
  unfold buildNew
  cases hpk : conf.pubKeyOk with
  | false => exact ⟨rfl, rfl⟩
  | true =>
      cases hq : conf.queryablePfx with
      | none => simp [hno, exIsOk]
      | some o =>
          cases o with
          | none => exact ⟨rfl, rfl⟩
          | some pk => simp [hno, exIsOk]

/-- Witness for `c3_no_hlc`. -/
theorem c3_no_hlc_witness :
    exIsOk (buildNew ⟨true, none, false, true, true⟩ ⟨0, 0⟩).1 = false
    ∧ (buildNew ⟨true, none, false, true, true⟩ ⟨0, 0⟩).2 = ⟨0, 0⟩ :=
  c3_no_hlc ⟨true, none, false, true, true⟩ ⟨0, 0⟩ rfl

/-- C4 — rollback on partial failure: when validation and the HLC check
pass, the subscription declaration succeeds and the queryable declaration
fails, the build returns an error and the registration counters end up
exactly where they started (the subscriber registered in between is
undeclared again by being dropped). -/
theorem c4_rollback (conf : BuildConf) (r : Registrations)
    (h1 : conf.pubKeyOk = true) (h2 : conf.queryablePfx ≠ some none)
    (h3 : conf.hasHlc = true) (h4 : conf.subDeclOk = true)
    (h5 : conf.qryDeclOk = false) :
    exIsOk (buildNew conf r).1 = false ∧ (buildNew conf r).2 = r := by
  cases hq : conf.queryablePfx with
  | none => simp [buildNew, h1, hq, h3, h4, h5, dropSub, exIsOk]
  | some o =>
      cases o with
      | none => exact absurd hq h2
      | some pk => simp [buildNew, h1, hq, h3, h4, h5, dropSub, exIsOk]

/-- Witness for `c4_rollback`: the failed build leaves zero registrations. -/
theorem c4_rollback_witness :
    exIsOk (buildNew ⟨true, some (some "cache"), true, true, false⟩ ⟨0, 0⟩).1 = false
    ∧ (buildNew ⟨true, some (some "cache"), true, true, false⟩ ⟨0, 0⟩).2 = ⟨0, 0⟩ :=
  c4_rollback ⟨true, some (some "cache"), true, true, false⟩ ⟨0, 0⟩ rfl
    (by simp) rfl rfl rfl

/-- C5 — close protocol: close always performs, in order, the queryable
undeclare, the subscription undeclare (explicitly or through drop), and the
drop of the control-channel sender; it succeeds iff both undeclares do, and
otherwise returns the first error encountered while still dropping the
control channel. -/
theorem c5_close_order (env : CloseEnv) :
    (closeRun env).1 = [Act.undeclQry, Act.undeclSub, Act.dropCtrl]
    ∧ ((closeRun env).2 = Except.ok () ↔
        (env.qryUndeclOk = true ∧ env.subUndeclOk = true))
    ∧ (env.qryUndeclOk = false →
        (closeRun env).2 = Except.error "undeclare queryable failed")
    ∧ (env.qryUndeclOk = true → env.subUndeclOk = false →
        (closeRun env).2 = Except.error "undeclare subscriber failed")
    ∧ Act.dropCtrl ∈ (closeRun env).1 := by
  obtain ⟨q, s⟩ := env
  cases q <;> cases s <;> simp [closeRun, dropRemaining]

/-- Witness for `c5_close_order`: even with the queryable undeclare
failing, all three teardown actions happen in order. -/
theorem c5_close_order_witness :
    (closeRun ⟨false, true⟩).1 = [Act.undeclQry, Act.undeclSub, Act.dropCtrl] :=
  (c5_close_order ⟨false, true⟩).1

/-! ### Event-loop termination (C9) -/

theorem stepEvent_cases {join : Key → Key → Option Key}
    (hj : ∀ p k, (join p k).isSome = true) (qpfx : Option Key)
    (h limit : Nat) (intersects : Key → Key → Bool) (e : Event) (c : Cache) :
    (e = Event.control
      ∧ stepEvent join qpfx h limit intersects e c = StepRes.stopped)
    ∨ (e ≠ Event.control ∧ ∃ c' rs,
        stepEvent join qpfx h limit intersects e c = StepRes.running c' rs) := by
  cases e with
  | publication res =>
      cases res with
      | none => exact Or.inr ⟨by simp, c, [], rfl⟩
      | some s =>
          refine Or.inr ⟨by simp, ?_⟩
          cases qpfx with
          | none =>
              exact ⟨recordSample h limit s.keyExpr s c, [],
                by simp [stepEvent, handlePublication]⟩
          | some p =>
              have hs := hj p s.keyExpr
              cases hje : join p s.keyExpr with
              | some qk =>
                  exact ⟨recordSample h limit qk s c, [],
                    by simp [stepEvent, handlePublication, hje]⟩
              | none => rw [hje] at hs; simp at hs
  | query res =>
      cases res with
      | none => exact Or.inr ⟨by simp, c, [], rfl⟩
      | some sel => exact Or.inr ⟨by simp, c, _, rfl⟩
  | control => exact Or.inl ⟨rfl, rfl⟩

theorem runLoop_total_stop {join : Key → Key → Option Key}
    (hj : ∀ p k, (join p k).isSome = true) (qpfx : Option Key)
    (h limit : Nat) (intersects : Key → Key → Bool) :
    ∀ (evts : List Event) (c : Cache),
      ∃ c' st, runLoop join qpfx h limit intersects evts c = some (c', st)
        ∧ (st = true ↔ Event.control ∈ evts) := by
  intro evts
  induction evts with
  | nil => intro c; exact ⟨c, false, rfl, by simp⟩
  | cons e rest ih =>
      intro c
      rcases stepEvent_cases hj qpfx h limit intersects e c with
        ⟨rfl, hstep⟩ | ⟨hne, c1, rs, hstep⟩
      · exact ⟨c, true, by simp [runLoop, hstep], by simp⟩
      · obtain ⟨c', st, hrun, hiff⟩ := ih c1
        refine ⟨c', st, by simp [runLoop, hstep, hrun], ?_⟩
        rw [hiff, List.mem_cons]
        constructor
        · exact Or.inr
        · rintro (he | hm)
          · exact absurd he.symm hne
          · exact hm

theorem runLoop_first_control {join : Key → Key → Option Key}
    (hj : ∀ p k, (join p k).isSome = true) (qpfx : Option Key)
    (h limit : Nat) (intersects : Key → Key → Bool) :
    ∀ (pre post : List Event) (c : Cache),
      runLoop join qpfx h limit intersects (pre ++ Event.control :: post) c
        = runLoop join qpfx h limit intersects (pre ++ [Event.control]) c := by
  intro pre
  induction pre with
  | nil => intro post c; simp [runLoop, stepEvent]
  | cons e pre ih =>
      intro post c
      rcases stepEvent_cases hj qpfx h limit intersects e c with
        ⟨rfl, hstep⟩ | ⟨hne, c1, rs, hstep⟩
      · simp [runLoop, hstep]
      · simp only [List.cons_append, runLoop, hstep]
        exact ih post c1

/-- C9 — the loop exits exactly on the control event: on any finite
schedule of ready events (with the join total, so the task does not panic)
the loop neither panics nor exits unless a control event occurs; when the
first control event occurs the loop returns at once and the remaining
pending events are abandoned, never processed. -/
theorem c9_loop_exit (join : Key → Key → Option Key)
    (hj : ∀ p k, (join p k).isSome = true) (qpfx : Option Key)
    (h limit : Nat) (intersects : Key → Key → Bool)
    (evts : List Event) (c : Cache) :
    (∃ c' st, runLoop join qpfx h limit intersects evts c = some (c', st)
      ∧ (st = true ↔ Event.control ∈ evts))
    ∧ (∀ pre post,
        runLoop join qpfx h limit intersects (pre ++ Event.control :: post) c
          = runLoop join qpfx h limit intersects (pre ++ [Event.control]) c) :=
  ⟨runLoop_total_stop hj qpfx h limit intersects evts c,
    fun pre post => runLoop_first_control hj qpfx h limit intersects pre post c⟩

/-- Witness for `c9_loop_exit`: a publication, then control, then a pending
query; the loop stops and the pending query is abandoned. -/
theorem c9_loop_exit_witness :
    ∃ c' st, runLoop joinSpec none 1 1 (fun _ _ => true)
        [Event.publication (some ⟨"a/b", 0⟩), Event.control,
          Event.query (some "a/b")] []
      = some (c', st)
      ∧ (st = true ↔ Event.control ∈
          [Event.publication (some ⟨"a/b", 0⟩), Event.control,
            Event.query (some "a/b")]) :=
  (c9_loop_exit joinSpec (fun _ _ => rfl) none 1 1 (fun _ _ => true) _ []).1

end PubCache
